import Mathlib

/-!
Verification of the dependency-resolution and job-scheduling core of the
easybuild-framework repository.

The job-backend registry functions (`avail_job_servers`, `job_server`,
`preferred_job_server`) are embedded directly from
`easybuild/tools/job/__init__.py`.  The resolver (`resolve_dependencies`)
and the availability filter (`skip_available`) are imported by the test
suite from `easybuild.framework.easyconfig.tools`, whose source is not part
of this tree; they are modelled from the specification (sections 3, 4.1-4.4
of the design document).
-/

namespace EasyBuild

/-- A named/versioned compiler+library stack (spec section 3, BuildSpec.toolchain). -/
structure Toolchain where
  name : String
  version : String
deriving DecidableEq, Repr

/-- Modelled from the spec: toolchain variant of a dependency descriptor,
`Named\x7bname,version\x7d | NoToolchain` (spec section 3). -/
inductive TcVariant where
  | named : String → String → TcVariant
  | noToolchain : TcVariant
deriving DecidableEq, Repr

/-- Modelled from the spec: DependencyDescriptor (spec section 3): name,
version, versionsuffix, toolchain variant.  Describes a dependency before it
is matched to a concrete spec or module. -/
structure Dep where
  name : String
  version : String
  versionsuffix : String
  toolchain : TcVariant
deriving DecidableEq, Repr

/-- Modelled from the spec: BuildSpec (spec section 3): name, version,
versionsuffix, toolchain, full module name (unique key), short module name,
ordered dependency descriptors, parsed flag, origin token. -/
structure BuildSpec where
  name : String
  version : String
  versionsuffix : String
  toolchain : Toolchain
  full_mod_name : String
  short_mod_name : String
  dependencies : List Dep
  parsed : Bool
  spec : String
deriving DecidableEq, Repr

/-- Modelled from the spec: the external collaborators of the resolver
(spec sections 4.1, 4.2, 6): the module-availability oracle, the naming
convention deriving a full module name from a dependency descriptor, and the
search-roots ("robot path") lookup.  The search-roots lookup is keyed by the
descriptor's derived full module name, since the file naming convention is
derived from the same descriptor fields; it returns `none` for every name
when `robot_path` is disabled. -/
structure Env where
  available : String → Bool
  depModName : Dep → String
  search : String → Option BuildSpec

/-- Modelled from the spec: ResolutionPolicy (spec section 3); `robot_path`
is folded into `Env.search` and `validate` has no effect in scope. -/
structure Policy where
  force : Bool
  retain_all_deps : Bool
deriving DecidableEq, Repr

/-- State carried by the resolver traversal: the memo of full module names
holding a BuildNode (done colour), the emitted output in order, the specs
discovered via location, and the irresolvable descriptors collected so far. -/
structure RState where
  memo : List String
  emitted : List BuildSpec
  discovered : List BuildSpec
  unresolved : List Dep
deriving DecidableEq, Repr

/-- The empty resolver state. -/
def initState : RState := ⟨[], [], [], []⟩

/-- Full module names of the explicitly supplied root specs. -/
def poolNames (pool : List BuildSpec) : List String :=
  pool.map BuildSpec.full_mod_name

/-- Modelled from the spec: the shallow-pruning condition (spec section 4.3):
a discovered dependency (never an explicitly supplied root) whose module is
already available is pruned when `retain_all_deps` is false. -/
def Pruned (env : Env) (pol : Policy) (pool : List BuildSpec) (n : String) : Prop :=
  n ∉ poolNames pool ∧ env.available n = true ∧ pol.retain_all_deps = false

instance (env : Env) (pol : Policy) (pool : List BuildSpec) (n : String) :
    Decidable (Pruned env pol pool n) :=
  inferInstanceAs (Decidable (_ ∧ _ ∧ _))

/-- Modelled from the spec: SpecLocator.locate (spec section 4.1), matching a
derived full module name against the explicit pool and the
already-discovered nodes first, then falling back to the search roots. -/
def locate (env : Env) (pool disc : List BuildSpec) (n : String) : Option BuildSpec :=
  match (pool ++ disc).find? (fun s => s.full_mod_name == n) with
  | some s => some s
  | none => env.search n

/-- The location outcome for a name, ignoring the traversal state: the
explicit pool first, then the search roots.  Coincides with `locate` in any
reachable state of a well-formed environment. -/
def locatePure (env : Env) (pool : List BuildSpec) (n : String) : Option BuildSpec :=
  match pool.find? (fun s => s.full_mod_name == n) with
  | some s => some s
  | none => env.search n

/-- Traversal-level failures: revisiting an in-progress node (fatal
CyclicDependency, spec section 4.3) or exhaustion of the recursion fuel. -/
inductive RErr where
  | cyclic
  | outOfFuel
deriving DecidableEq, Repr

/-- Modelled from the spec: visiting the dependency descriptors of a node in
declared order (spec section 4.3): memo reuse, else locate against the pool
and discovered nodes and expand through the recursive visitor `rec`; a
descriptor that is not locatable is omitted when its module is available,
else recorded as irresolvable and the traversal continues. -/
def visitDeps (env : Env) (pol : Policy) (pool : List BuildSpec)
    (rec : BuildSpec → RState → Except RErr RState) :
    List Dep → RState → Except RErr RState
  | [], st => .ok st
  | d :: ds', st =>
    let n := env.depModName d
    if n ∈ st.memo then visitDeps env pol pool rec ds' st
    else
      match locate env pool st.discovered n with
      | some s =>
        match rec s { st with discovered := st.discovered ++ [s] } with
        | .error e => .error e
        | .ok st' => visitDeps env pol pool rec ds' st'
      | none =>
        if env.available n then visitDeps env pol pool rec ds' st
        else visitDeps env pol pool rec ds'
          { st with unresolved := st.unresolved ++ [d] }

/-- Modelled from the spec: one node visit of the resolver (spec section
4.3).  Three-state colouring: `gray` is the in-progress stack (revisiting it
is a fatal cycle), the memo is the done set ensuring single expansion per
full module name; a discovered dependency that is available is shallowly
pruned (memo entry, no emission, no descent) unless `retain_all_deps`;
otherwise the dependencies are expanded first and the node is emitted after
them (post-order). -/
def visitSpec (env : Env) (pol : Policy) (pool : List BuildSpec) :
    Nat → List String → BuildSpec → RState → Except RErr RState
  | 0, _, _, _ => .error .outOfFuel
  | fuel + 1, gray, s, st =>
    if s.full_mod_name ∈ gray then .error .cyclic
    else if s.full_mod_name ∈ st.memo then .ok st
    else if Pruned env pol pool s.full_mod_name then
      .ok { st with memo := st.memo ++ [s.full_mod_name] }
    else
      match visitDeps env pol pool
          (visitSpec env pol pool fuel (s.full_mod_name :: gray))
          s.dependencies st with
      | .error e => .error e
      | .ok st' =>
        .ok { st' with memo := st'.memo ++ [s.full_mod_name],
                       emitted := st'.emitted ++ [s] }

/-- Modelled from the spec: traversal of the root specs in input order
(spec section 4.3). -/
def resolveRoots (env : Env) (pol : Policy) (pool : List BuildSpec) (fuel : Nat) :
    List BuildSpec → RState → Except RErr RState
  | [], st => .ok st
  | r :: rs, st =>
    match visitSpec env pol pool fuel [] r st with
    | .error e => .error e
    | .ok st' => resolveRoots env pol pool fuel rs st'

/-- Outcome of a resolution call: the ordered deduplicated output, or a
single batch UnresolvedDependency failure listing every irresolvable
descriptor, or a fatal CyclicDependency, or fuel exhaustion. -/
inductive ResolveResult where
  | ok : List BuildSpec → ResolveResult
  | unresolvedDependency : List Dep → ResolveResult
  | cyclicDependency : ResolveResult
  | outOfFuel : ResolveResult
deriving DecidableEq, Repr

/-- Modelled from the spec: `resolve_dependencies` (spec section 4.3), the
function imported from `easybuild.framework.easyconfig.tools` that is absent
from this tree.  Roots are traversed in input order; if any irresolvable
descriptors were recorded the call fails with an UnresolvedDependency
listing all of them and no partial output is returned. -/
def resolve_dependencies (env : Env) (pol : Policy) (specs : List BuildSpec)
    (fuel : Nat) : ResolveResult :=
  match resolveRoots env pol specs fuel specs initState with
  | .error .cyclic => .cyclicDependency
  | .error .outOfFuel => .outOfFuel
  | .ok st =>
    if st.unresolved = [] then .ok st.emitted
    else .unresolvedDependency st.unresolved

/-- Modelled from the spec: `skip_available` (spec section 4.4), the
availability pre-filter imported from `easybuild.framework.easyconfig.tools`
whose source is absent from this tree: identity under `force`, otherwise it
removes every spec whose own full module name is currently available. -/
def skip_available (env : Env) (pol : Policy) (specs : List BuildSpec) :
    List BuildSpec :=
  if pol.force then specs
  else specs.filter (fun s => !(env.available s.full_mod_name))

/-! Job-backend registry, embedded from `easybuild/tools/job/__init__.py`. -/

/-- A concrete `JobServer` subclass as seen by the registry: its class name
and its `USABLE` class attribute (environment probing). -/
structure JobBackend where
  name : String
  usable : Bool
deriving DecidableEq, Repr

/-- `avail_job_servers(check_usable=True)`: the known job execution
backends, keeping a subclass when `x.USABLE or not check_usable`. -/
def avail_job_servers (reg : List JobBackend) (check_usable : Bool) :
    List JobBackend :=
  reg.filter (fun b => b.usable || !check_usable)

/-- Lookup in the `class_dict` built by `avail_job_servers`: a Python dict
comprehension keyed by class name, so the last entry for a name wins. -/
def backendLookup (cs : List JobBackend) (n : String) : Option JobBackend :=
  cs.reverse.find? (fun b => b.name == n)

/-- `job_server()`: select the configured backend by name among the usable
registered backends.  `None` models the fatal failure of the Python code
(`avail_job_servers().get(job_server)` returns `None`, and calling it
raises), surfaced during selection, before any submission. -/
def job_server (reg : List JobBackend) (requested : String) : Option JobBackend :=
  backendLookup (avail_job_servers reg true) requested

/-- `preferred_job_server(order)`: the first backend name in the preference
order that is registered and usable, else `None`. -/
def preferred_job_server (reg : List JobBackend) : List String → Option String
  | [] => none
  | b :: rest =>
    if (backendLookup (avail_job_servers reg true) b).isSome then some b
    else preferred_job_server reg rest

/-! Specification predicates used by the theorems below. -/

/-- Well-formedness of the external environment: a spec located through the
search roots under a derived full module name carries exactly that name
(the file naming convention and the module naming convention are derived
from the same descriptor fields). -/
def WFEnv (env : Env) : Prop :=
  ∀ n s, env.search n = some s → s.full_mod_name = n

/-- One resolver state extends another: every component has only been
appended to. -/
structure Ext (st st' : RState) : Prop where
  memo : ∃ t, st'.memo = st.memo ++ t
  emitted : ∃ t, st'.emitted = st.emitted ++ t
  discovered : ∃ t, st'.discovered = st.discovered ++ t
  unresolved : ∃ t, st'.unresolved = st.unresolved ++ t

/-- The names the resolver emits, characterised declaratively: the names of
the explicit roots, closed under following declared dependency descriptors
of located specs whenever the descriptor's derived name is itself locatable
and not shallowly pruned. -/
inductive Emits (env : Env) (pol : Policy) (pool : List BuildSpec) : String → Prop where
  | root : ∀ r, r ∈ pool → Emits env pol pool r.full_mod_name
  | step : ∀ m s d, Emits env pol pool m → locatePure env pool m = some s →
      d ∈ s.dependencies →
      (locatePure env pool (env.depModName d)).isSome = true →
      ¬ Pruned env pol pool (env.depModName d) →
      Emits env pol pool (env.depModName d)

/-- The resolver-state invariant: emitted specs are memoised, no full module
name is emitted twice, memo entries are either emitted or pruned, every
emitted spec is the one its name locates to and is unpruned, every emitted
spec's located unpruned dependencies appear strictly earlier in the output,
discovered specs agree with the search oracle, recorded irresolvable
descriptors are genuinely not locatable and not available, and every
emitted name is derivable by `Emits`. -/
structure Inv (env : Env) (pol : Policy) (pool : List BuildSpec) (st : RState) : Prop where
  emitted_memo : ∀ s ∈ st.emitted, s.full_mod_name ∈ st.memo
  nodup : (st.emitted.map BuildSpec.full_mod_name).Nodup
  memo_cases : ∀ n ∈ st.memo,
      n ∈ st.emitted.map BuildSpec.full_mod_name ∨ Pruned env pol pool n
  emitted_loc : ∀ s ∈ st.emitted, locatePure env pool s.full_mod_name = some s
  emitted_not_pruned : ∀ s ∈ st.emitted, ¬ Pruned env pol pool s.full_mod_name
  order : ∀ (k : Nat) (hk : k < st.emitted.length) (d : Dep),
      d ∈ st.emitted[k].dependencies →
      (locatePure env pool (env.depModName d)).isSome = true →
      ¬ Pruned env pol pool (env.depModName d) →
      ∃ (j : Nat) (hj : j < st.emitted.length), j < k ∧
        st.emitted[j].full_mod_name = env.depModName d
  disc : ∀ s ∈ st.discovered, s.full_mod_name ∉ poolNames pool →
      env.search s.full_mod_name = some s
  unres : ∀ d ∈ st.unresolved,
      locatePure env pool (env.depModName d) = none ∧
      env.available (env.depModName d) = false
  sound : ∀ s ∈ st.emitted, Emits env pol pool s.full_mod_name

/-- Contract of a recursive visitor relative to an in-progress stack `gray`:
under a well-formed environment and an invariant state, a successful visit
of a spec that its own name locates to (or that is already memoised), and
whose name is memoised, pruned or `Emits`-derivable, preserves the
invariant, only extends the state, records the name in the memo, and adds
no in-progress name to the memo. -/
def RecOK (env : Env) (pol : Policy) (pool : List BuildSpec) (gray : List String)
    (rec : BuildSpec → RState → Except RErr RState) : Prop :=
  ∀ s st st', WFEnv env → Inv env pol pool st →
    (locatePure env pool s.full_mod_name = some s ∨ s.full_mod_name ∈ st.memo) →
    (s.full_mod_name ∈ st.memo ∨ Pruned env pol pool s.full_mod_name ∨
      Emits env pol pool s.full_mod_name) →
    rec s st = .ok st' →
    Inv env pol pool st' ∧ Ext st st' ∧ s.full_mod_name ∈ st'.memo ∧
      (∀ m ∈ gray, m ∈ st'.memo → m ∈ st.memo)

/-- Induction statement for `visitSpec` at a given fuel: the visitor
satisfies its contract for every in-progress stack. -/
def PSpec (env : Env) (pol : Policy) (pool : List BuildSpec) (fuel : Nat) : Prop :=
  ∀ gray, RecOK env pol pool gray (visitSpec env pol pool fuel gray)

/-- Direct dependency between two members of a result list: `b`'s full
module name is the derived name of one of `a`'s declared dependency
descriptors. -/
def DirectDepIn (env : Env) (out : List BuildSpec) (a b : BuildSpec) : Prop :=
  a ∈ out ∧ b ∈ out ∧ b.full_mod_name ∈ a.dependencies.map env.depModName

/-! Concrete data used to exercise the definitions. -/

/-- A build spec with dummy toolchain whose full module name follows the
`name/version` convention. -/
def mkSpec (n v : String) (deps : List Dep) : BuildSpec :=
  ⟨n, v, "", ⟨"dummy", "dummy"⟩, n ++ "/" ++ v, n ++ "/" ++ v, deps, true, "_"⟩

/-- A dependency descriptor on the dummy toolchain. -/
def dDep (n v : String) : Dep := ⟨n, v, "", TcVariant.named "dummy" "dummy"⟩

/-- The `name/version` naming convention used by the concrete examples. -/
def dName (d : Dep) : String := d.name ++ "/" ++ d.version

/-- gzip/1.4 with no dependencies. -/
def gzipSpec : BuildSpec := mkSpec "gzip" "1.4" []

/-- foo/1.2.3 depending on gzip/1.4. -/
def fooGzip : BuildSpec := mkSpec "foo" "1.2.3" [dDep "gzip" "1.4"]

/-- bar/1.0 declaring two descriptors that are neither locatable nor
available. -/
def barSpec : BuildSpec := mkSpec "bar" "1.0" [dDep "miss1" "1", dDep "miss2" "2"]

/-- An environment with no available modules and no search roots. -/
def noneEnv : Env := ⟨fun _ => false, dName, fun _ => none⟩

/-- An environment where every module is available, with no search roots. -/
def allEnv : Env := ⟨fun _ => true, dName, fun _ => none⟩

/-- foo/1.2.3 depending on the goolf/1.4.10 toolchain (scenario E of the
spec). -/
def fooSpec : BuildSpec := mkSpec "foo" "1.2.3" [dDep "goolf" "1.4.10"]

/-- goolf/1.4.10 with its five ingredients as dependencies. -/
def goolfSpec : BuildSpec := mkSpec "goolf" "1.4.10"
  [dDep "GCC" "4.7.2",
   dDep "OpenMPI" "1.6.4-GCC-4.7.2",
   dDep "OpenBLAS" "0.2.6-gompi-1.4.10-LAPACK-3.4.2",
   dDep "FFTW" "3.3.3-gompi-1.4.10",
   dDep "ScaLAPACK" "2.0.2-gompi-1.4.10-OpenBLAS-0.2.6-LAPACK-3.4.2"]

/-- An ingredient of goolf: locatable, and carrying a dependency that is
neither locatable nor available, so that any descent into the ingredient
would make the resolution fail. -/
def ingSpec (n v : String) : BuildSpec := mkSpec n v [dDep "poison" "0"]

/-- The specs reachable through the search roots in the goolf scenario. -/
def c3Repo : List BuildSpec :=
  [goolfSpec,
   ingSpec "GCC" "4.7.2",
   ingSpec "OpenMPI" "1.6.4-GCC-4.7.2",
   ingSpec "OpenBLAS" "0.2.6-gompi-1.4.10-LAPACK-3.4.2",
   ingSpec "FFTW" "3.3.3-gompi-1.4.10",
   ingSpec "ScaLAPACK" "2.0.2-gompi-1.4.10-OpenBLAS-0.2.6-LAPACK-3.4.2"]

/-- The goolf-scenario environment: the five ingredients report available,
everything is locatable through `c3Repo`. -/
def c3Env : Env :=
  ⟨fun n => ["GCC/4.7.2",
             "OpenMPI/1.6.4-GCC-4.7.2",
             "OpenBLAS/0.2.6-gompi-1.4.10-LAPACK-3.4.2",
             "FFTW/3.3.3-gompi-1.4.10",
             "ScaLAPACK/2.0.2-gompi-1.4.10-OpenBLAS-0.2.6-LAPACK-3.4.2"].contains n,
   dName,
   fun n => c3Repo.find? (fun s => s.full_mod_name == n)⟩

/-- tar/1.26 with no dependencies. -/
def tarSpec : BuildSpec := mkSpec "tar" "1.26" []

/-- A job backend whose `USABLE` probe failed. -/
def pbsBackend : JobBackend := ⟨"PbsPython", false⟩

/-- A usable job backend. -/
def gcBackend : JobBackend := ⟨"GC3Pie", true⟩

/-! Basic lemmas about state extension and location. -/

theorem Ext.refl (st : RState) : Ext st st :=
  ⟨⟨[], (List.append_nil _).symm⟩, ⟨[], (List.append_nil _).symm⟩,
   ⟨[], (List.append_nil _).symm⟩, ⟨[], (List.append_nil _).symm⟩⟩

theorem Ext.trans {a b c : RState} (h₁ : Ext a b) (h₂ : Ext b c) : Ext a c := by
  obtain ⟨⟨t1, e1⟩, ⟨t2, e2⟩, ⟨t3, e3⟩, ⟨t4, e4⟩⟩ := h₁
  obtain ⟨⟨u1, f1⟩, ⟨u2, f2⟩, ⟨u3, f3⟩, ⟨u4, f4⟩⟩ := h₂
  exact ⟨⟨t1 ++ u1, by rw [f1, e1, List.append_assoc]⟩,
         ⟨t2 ++ u2, by rw [f2, e2, List.append_assoc]⟩,
         ⟨t3 ++ u3, by rw [f3, e3, List.append_assoc]⟩,
         ⟨t4 ++ u4, by rw [f4, e4, List.append_assoc]⟩⟩

theorem Ext.memo_mem {a b : RState} (h : Ext a b) {m : String}
    (hm : m ∈ a.memo) : m ∈ b.memo := by
  obtain ⟨t, ht⟩ := h.memo
  rw [ht]; exact List.mem_append_left _ hm

theorem Ext.emitted_mem {a b : RState} (h : Ext a b) {s : BuildSpec}
    (hs : s ∈ a.emitted) : s ∈ b.emitted := by
  obtain ⟨t, ht⟩ := h.emitted
  rw [ht]; exact List.mem_append_left _ hs

theorem Ext.unresolved_mem {a b : RState} (h : Ext a b) {d : Dep}
    (hd : d ∈ a.unresolved) : d ∈ b.unresolved := by
  obtain ⟨t, ht⟩ := h.unresolved
  rw [ht]; exact List.mem_append_left _ hd

theorem name_eq_of_beq {s : BuildSpec} {n : String}
    (h : (s.full_mod_name == n) = true) : s.full_mod_name = n := by
  simpa using h

theorem locatePure_some_name {env : Env} {pool : List BuildSpec} {n : String}
    {s : BuildSpec} (hwf : WFEnv env) (h : locatePure env pool n = some s) :
    s.full_mod_name = n := by
  unfold locatePure at h
  cases hf : pool.find? (fun x => x.full_mod_name == n) with
  | some x =>
    rw [hf] at h
    have hb := List.find?_some hf
    cases h
    exact name_eq_of_beq hb
  | none =>
    rw [hf] at h
    exact hwf n s h

theorem find?_pool_eq_none {pool : List BuildSpec} {n : String}
    (hn : n ∉ poolNames pool) :
    pool.find? (fun x => x.full_mod_name == n) = none := by
  rw [List.find?_eq_none]
  intro x hx hbeq
  exact hn (List.mem_map.2 ⟨x, hx, name_eq_of_beq hbeq⟩)

theorem locatePure_not_pool {env : Env} {pool : List BuildSpec} {n : String}
    (hn : n ∉ poolNames pool) : locatePure env pool n = env.search n := by
  unfold locatePure
  rw [find?_pool_eq_none hn]

theorem locate_eq_locatePure {env : Env} {pool disc : List BuildSpec} {n : String}
    (hd : ∀ s ∈ disc, s.full_mod_name ∉ poolNames pool →
      env.search s.full_mod_name = some s) :
    locate env pool disc n = locatePure env pool n := by
  unfold locate locatePure
  rw [List.find?_append]
  cases hf : pool.find? (fun x => x.full_mod_name == n) with
  | some x => rw [Option.or_some]
  | none =>
    rw [Option.none_or]
    have hnp : n ∉ poolNames pool := by
      intro hc
      obtain ⟨p, hp, hpn⟩ := List.mem_map.1 hc
      have := (List.find?_eq_none.1 hf) p hp
      simp [hpn] at this
    cases hg : disc.find? (fun x => x.full_mod_name == n) with
    | some x =>
      have hb := List.find?_some hg
      have hxn : x.full_mod_name = n := name_eq_of_beq hb
      have hxm := List.mem_of_find?_eq_some hg
      have hspec := hd x hxm (by rw [hxn]; exact hnp)
      rw [hxn] at hspec
      rw [hspec]
    | none => rfl

theorem pruned_not_pool {env : Env} {pol : Policy} {pool : List BuildSpec}
    {n : String} (hn : n ∈ poolNames pool) : ¬ Pruned env pol pool n := by
  intro h
  exact h.1 hn

theorem emits_not_pruned {env : Env} {pol : Policy} {pool : List BuildSpec}
    {m : String} (h : Emits env pol pool m) : ¬ Pruned env pol pool m := by
  cases h with
  | root r hr => exact pruned_not_pool (List.mem_map.2 ⟨r, hr, rfl⟩)
  | step m s d _ _ _ _ hnp => exact hnp

theorem emits_retain_mono {env : Env} {f₁ f₂ r₁ : Bool} {pool : List BuildSpec}
    {m : String} (h : Emits env ⟨f₁, r₁⟩ pool m) : Emits env ⟨f₂, true⟩ pool m := by
  induction h with
  | root r hr => exact Emits.root r hr
  | step m s d _ hloc hd hsome _ ih =>
    refine Emits.step m s d ih hloc hd hsome ?_
    intro hpr
    exact absurd hpr.2.2 (by simp)

theorem inv_init (env : Env) (pol : Policy) (pool : List BuildSpec) :
    Inv env pol pool initState := by
  refine ⟨?_, ?_, ?_, ?_, ?_, ?_, ?_, ?_, ?_⟩ <;>
    simp [initState]

/-! The invariant-preservation induction over the traversal. -/

theorem pspec_zero (env : Env) (pol : Policy) (pool : List BuildSpec) :
    PSpec env pol pool 0 := by
  intro gray s st st' _ _ _ _ h
  simp [visitSpec] at h

theorem pdeps_main {env : Env} {pol : Policy} {pool : List BuildSpec}
    {gray : List String} {rec : BuildSpec → RState → Except RErr RState}
    (hrec : RecOK env pol pool gray rec) :
    ∀ (ds : List Dep) (st st' : RState), WFEnv env → Inv env pol pool st →
    (∀ d ∈ ds, (locatePure env pool (env.depModName d)).isSome = true →
      ¬ Pruned env pol pool (env.depModName d) →
      Emits env pol pool (env.depModName d)) →
    visitDeps env pol pool rec ds st = .ok st' →
    Inv env pol pool st' ∧ Ext st st' ∧
      (∀ d ∈ ds, (locatePure env pool (env.depModName d)).isSome = true →
        env.depModName d ∈ st'.memo) ∧
      (∀ m ∈ gray, m ∈ st'.memo → m ∈ st.memo) := by
  intro ds
  induction ds with
  | nil =>
    intro st st' hwf hinv hd h
    simp only [visitDeps] at h
    cases h
    refine ⟨hinv, Ext.refl st, ?_, ?_⟩
    · intro d hd'
      cases hd'
    · intro m _ hm
      exact hm
  | cons d ds ih =>
    intro st st' hwf hinv hd h
    simp only [visitDeps] at h
    by_cases hmem : env.depModName d ∈ st.memo
    · rw [if_pos hmem] at h
      obtain ⟨hinv', hext, hpost, hgray⟩ :=
        ih st st' hwf hinv (fun d' hd' => hd d' (List.mem_cons_of_mem _ hd')) h
      refine ⟨hinv', hext, ?_, hgray⟩
      intro d' hd' hsome
      rcases List.mem_cons.1 hd' with rfl | hd''
      · exact hext.memo_mem hmem
      · exact hpost d' hd'' hsome
    · rw [if_neg hmem] at h
      split at h
      next s hloc =>
        have hlp : locatePure env pool (env.depModName d) = some s := by
          rw [← locate_eq_locatePure hinv.disc]; exact hloc
        have hsn : s.full_mod_name = env.depModName d := locatePure_some_name hwf hlp
        have hinv₁ : Inv env pol pool { st with discovered := st.discovered ++ [s] } := by
          refine ⟨hinv.emitted_memo, hinv.nodup, hinv.memo_cases, hinv.emitted_loc,
            hinv.emitted_not_pruned, hinv.order, ?_, hinv.unres, hinv.sound⟩
          intro x hx hnp
          rcases List.mem_append.1 hx with hx' | hx'
          · exact hinv.disc x hx' hnp
          · have hxs : x = s := by simpa using hx'
            subst hxs
            have h2 : locatePure env pool (env.depModName d) =
                env.search (env.depModName d) :=
              locatePure_not_pool (hsn ▸ hnp)
            rw [hlp] at h2
            rw [hsn]
            exact h2.symm
        split at h
        next e hv => exact absurd h (by simp)
        next st₂ hv =>
          have hLocOK : locatePure env pool s.full_mod_name = some s ∨
              s.full_mod_name ∈ ({ st with discovered := st.discovered ++ [s] } : RState).memo :=
            Or.inl (by rw [hsn]; exact hlp)
          have hHE : s.full_mod_name ∈ ({ st with discovered := st.discovered ++ [s] } : RState).memo ∨
              Pruned env pol pool s.full_mod_name ∨ Emits env pol pool s.full_mod_name := by
            by_cases hpr : Pruned env pol pool s.full_mod_name
            · exact Or.inr (Or.inl hpr)
            · refine Or.inr (Or.inr ?_)
              rw [hsn]
              rw [hsn] at hpr
              exact hd d (List.mem_cons_self _ _) (by rw [hlp]; rfl) hpr
          obtain ⟨hinv₂, hext₂, hmemo₂, hgray₂⟩ :=
            hrec s { st with discovered := st.discovered ++ [s] } st₂ hwf hinv₁ hLocOK hHE hv
          obtain ⟨hinv₃, hext₃, hpost₃, hgray₃⟩ :=
            ih st₂ st' hwf hinv₂ (fun d' hd' => hd d' (List.mem_cons_of_mem _ hd')) h
          have hext₀ : Ext st { st with discovered := st.discovered ++ [s] } :=
            ⟨⟨[], by simp⟩, ⟨[], by simp⟩, ⟨[s], rfl⟩, ⟨[], by simp⟩⟩
          refine ⟨hinv₃, (hext₀.trans hext₂).trans hext₃, ?_, ?_⟩
          · intro d' hd' hsome
            rcases List.mem_cons.1 hd' with rfl | hd''
            · exact hext₃.memo_mem (hsn ▸ hmemo₂)
            · exact hpost₃ d' hd'' hsome
          · intro m hmg hm'
            exact hgray₂ m hmg (hgray₃ m hmg hm')
      next hloc =>
        have hlp : locatePure env pool (env.depModName d) = none := by
          rw [← locate_eq_locatePure hinv.disc]; exact hloc
        by_cases hav : env.available (env.depModName d) = true
        · rw [if_pos hav] at h
          obtain ⟨hinv', hext, hpost, hgray⟩ :=
            ih st st' hwf hinv (fun d' hd' => hd d' (List.mem_cons_of_mem _ hd')) h
          refine ⟨hinv', hext, ?_, hgray⟩
          intro d' hd' hsome
          rcases List.mem_cons.1 hd' with rfl | hd''
          · rw [hlp] at hsome; cases hsome
          · exact hpost d' hd'' hsome
        · rw [if_neg hav] at h
          have hinv₁ : Inv env pol pool { st with unresolved := st.unresolved ++ [d] } := by
            refine ⟨hinv.emitted_memo, hinv.nodup, hinv.memo_cases, hinv.emitted_loc,
              hinv.emitted_not_pruned, hinv.order, hinv.disc, ?_, hinv.sound⟩
            intro x hx
            rcases List.mem_append.1 hx with hx' | hx'
            · exact hinv.unres x hx'
            · have hxd : x = d := by simpa using hx'
              subst hxd
              exact ⟨hlp, by simpa using hav⟩
          obtain ⟨hinv', hext, hpost, hgray⟩ :=
            ih { st with unresolved := st.unresolved ++ [d] } st' hwf hinv₁
              (fun d' hd' => hd d' (List.mem_cons_of_mem _ hd')) h
          have hext₀ : Ext st { st with unresolved := st.unresolved ++ [d] } :=
            ⟨⟨[], by simp⟩, ⟨[], by simp⟩, ⟨[], by simp⟩, ⟨[d], rfl⟩⟩
          refine ⟨hinv', hext₀.trans hext, ?_, ?_⟩
          · intro d' hd' hsome
            rcases List.mem_cons.1 hd' with rfl | hd''
            · rw [hlp] at hsome; cases hsome
            · exact hpost d' hd'' hsome
          · intro m hmg hm'
            exact hgray m hmg hm'

theorem pspec_succ {env : Env} {pol : Policy} {pool : List BuildSpec} {fuel : Nat}
    (hps : PSpec env pol pool fuel) : PSpec env pol pool (fuel + 1) := by
  intro gray s st st' hwf hinv hloc hhe h
  simp only [visitSpec] at h
  by_cases hg : s.full_mod_name ∈ gray
  · rw [if_pos hg] at h
    exact absurd h (by simp)
  rw [if_neg hg] at h
  by_cases hm : s.full_mod_name ∈ st.memo
  · rw [if_pos hm] at h
    injection h with h'
    subst h'
    exact ⟨hinv, Ext.refl st, hm, fun m _ hmm => hmm⟩
  rw [if_neg hm] at h
  by_cases hp : Pruned env pol pool s.full_mod_name
  · rw [if_pos hp] at h
    injection h with h'
    subst h'
    refine ⟨?_, ?_, ?_, ?_⟩
    · refine ⟨?_, hinv.nodup, ?_, hinv.emitted_loc, hinv.emitted_not_pruned,
        hinv.order, hinv.disc, hinv.unres, hinv.sound⟩
      · intro x hx
        exact List.mem_append_left _ (hinv.emitted_memo x hx)
      · intro n hn
        rcases List.mem_append.1 hn with hn' | hn'
        · exact hinv.memo_cases n hn'
        · have hns : n = s.full_mod_name := by simpa using hn'
          subst hns
          exact Or.inr hp
    · exact ⟨⟨[s.full_mod_name], rfl⟩, ⟨[], by simp⟩, ⟨[], by simp⟩, ⟨[], by simp⟩⟩
    · simp
    · intro m hmg hmm
      rcases List.mem_append.1 hmm with h1 | h1
      · exact h1
      · have hms : m = s.full_mod_name := by simpa using h1
        subst hms
        exact absurd hmg hg
  rw [if_neg hp] at h
  split at h
  next e hv => exact absurd h (by simp)
  next st₂ hv =>
    injection h with h'
    subst h'
    have hem : Emits env pol pool s.full_mod_name := by
      rcases hhe with h1 | h1 | h1
      · exact absurd h1 hm
      · exact absurd h1 hp
      · exact h1
    have hsl : locatePure env pool s.full_mod_name = some s := by
      rcases hloc with h1 | h1
      · exact h1
      · exact absurd h1 hm
    have hHD : ∀ d ∈ s.dependencies,
        (locatePure env pool (env.depModName d)).isSome = true →
        ¬ Pruned env pol pool (env.depModName d) →
        Emits env pol pool (env.depModName d) := by
      intro d hd hsome hnp
      exact Emits.step s.full_mod_name s d hem hsl hd hsome hnp
    obtain ⟨hinv₂, hext₂, hdp₂, hgray₂⟩ :=
      pdeps_main (hps (s.full_mod_name :: gray)) s.dependencies st st₂ hwf hinv hHD hv
    have hsm : s.full_mod_name ∉ st₂.memo := fun hc =>
      hm (hgray₂ s.full_mod_name (List.mem_cons_self _ _) hc)
    have hse : s.full_mod_name ∉ st₂.emitted.map BuildSpec.full_mod_name := by
      intro hc
      obtain ⟨x, hx, hxn⟩ := List.mem_map.1 hc
      exact hsm (hxn ▸ hinv₂.emitted_memo x hx)
    refine ⟨?_, ?_, ?_, ?_⟩
    · refine ⟨?_, ?_, ?_, ?_, ?_, ?_, hinv₂.disc, hinv₂.unres, ?_⟩
      · intro x hx
        rcases List.mem_append.1 hx with hx' | hx'
        · exact List.mem_append_left _ (hinv₂.emitted_memo x hx')
        · have hxs : x = s := by simpa using hx'
          subst hxs
          exact List.mem_append_right _ (by simp)
      · show ((st₂.emitted ++ [s]).map BuildSpec.full_mod_name).Nodup
        rw [List.map_append]
        refine List.Nodup.append hinv₂.nodup (by simp) ?_
        intro a ha hb
        have has : a = s.full_mod_name := by simpa using hb
        subst has
        exact hse ha
      · intro n hn
        rcases List.mem_append.1 hn with hn' | hn'
        · rcases hinv₂.memo_cases n hn' with h1 | h1
          · exact Or.inl (by rw [List.map_append]; exact List.mem_append_left _ h1)
          · exact Or.inr h1
        · have hns : n = s.full_mod_name := by simpa using hn'
          subst hns
          exact Or.inl (by rw [List.map_append]; exact List.mem_append_right _ (by simp))
      · intro x hx
        rcases List.mem_append.1 hx with hx' | hx'
        · exact hinv₂.emitted_loc x hx'
        · have hxs : x = s := by simpa using hx'
          subst hxs
          exact hsl
      · intro x hx
        rcases List.mem_append.1 hx with hx' | hx'
        · exact hinv₂.emitted_not_pruned x hx'
        · have hxs : x = s := by simpa using hx'
          subst hxs
          exact hp
      · intro k hk d hdk hsome hnp
        have hk1 : k < st₂.emitted.length + 1 := by simpa using hk
        rcases Nat.lt_or_ge k st₂.emitted.length with hklt | hkge
        · have hgetk : (st₂.emitted ++ [s])[k] = st₂.emitted[k] :=
            List.getElem_append_left hklt
          rw [hgetk] at hdk
          obtain ⟨j, hj, hjk, hjn⟩ := hinv₂.order k hklt d hdk hsome hnp
          refine ⟨j, by simp; omega, hjk, ?_⟩
          rw [List.getElem_append_left hj]
          exact hjn
        · have hkeq : k = st₂.emitted.length := by omega
          subst hkeq
          have hgetk : (st₂.emitted ++ [s])[st₂.emitted.length] = s := by
            simp
          rw [hgetk] at hdk
          have hmem₂ := hdp₂ d hdk hsome
          rcases hinv₂.memo_cases _ hmem₂ with h1 | h1
          · obtain ⟨x, hx, hxn⟩ := List.mem_map.1 h1
            obtain ⟨j, hj, hjx⟩ := List.getElem_of_mem hx
            refine ⟨j, by simp; omega, by omega, ?_⟩
            rw [List.getElem_append_left hj, hjx]
            exact hxn
          · exact absurd h1 hnp
      · intro x hx
        rcases List.mem_append.1 hx with hx' | hx'
        · exact hinv₂.sound x hx'
        · have hxs : x = s := by simpa using hx'
          subst hxs
          exact hem
    · exact hext₂.trans ⟨⟨[s.full_mod_name], rfl⟩, ⟨[s], rfl⟩, ⟨[], by simp⟩, ⟨[], by simp⟩⟩
    · simp
    · intro m hmg hmm
      rcases List.mem_append.1 hmm with h1 | h1
      · exact hgray₂ m (List.mem_cons_of_mem _ hmg) h1
      · have hms : m = s.full_mod_name := by simpa using h1
        subst hms
        exact absurd hmg hg

theorem pspec_all (env : Env) (pol : Policy) (pool : List BuildSpec) :
    ∀ fuel, PSpec env pol pool fuel := by
  intro fuel
  induction fuel with
  | zero => exact pspec_zero env pol pool
  | succ fuel ih => exact pspec_succ ih

/-! Lifting the invariant over the traversal of the root list. -/

theorem first_match_mem {α : Type} (p : α → Bool) :
    ∀ (l₁ : List α) {l₂ done rest : List α} {x r : α},
    l₁ ++ x :: l₂ = done ++ r :: rest → (∀ y ∈ l₁, p y = false) → p r = true →
    x ∈ done ∨ x = r := by
  intro l₁
  induction l₁ with
  | nil =>
    intro l₂ done rest x r heq hl₁ hr
    cases done with
    | nil =>
      right
      have hx : x = r ∧ l₂ = rest := by simpa using heq
      exact hx.1
    | cons d done' =>
      left
      have hx : x = d ∧ l₂ = done' ++ r :: rest := by simpa using heq
      rw [hx.1]
      exact List.mem_cons_self _ _
  | cons y l₁' ih =>
    intro l₂ done rest x r heq hl₁ hr
    cases done with
    | nil =>
      have hy : y = r ∧ l₁' ++ x :: l₂ = rest := by simpa using heq
      have hpy := hl₁ y (List.mem_cons_self _ _)
      rw [hy.1, hr] at hpy
      cases hpy
    | cons d done' =>
      have hy : y = d ∧ l₁' ++ x :: l₂ = done' ++ r :: rest := by simpa using heq
      rcases ih hy.2 (fun z hz => hl₁ z (List.mem_cons_of_mem _ hz)) hr with h | h
      · exact Or.inl (List.mem_cons_of_mem _ h)
      · exact Or.inr h

theorem locatePure_root (env : Env) {pool done rest : List BuildSpec} {r : BuildSpec}
    (hpool : pool = done ++ r :: rest) :
    locatePure env pool r.full_mod_name = some r ∨
    ∃ x ∈ done, x.full_mod_name = r.full_mod_name := by
  have hrmem : r ∈ pool := by
    rw [hpool]; exact List.mem_append_right _ (List.mem_cons_self _ _)
  have hsome : (pool.find? (fun x => x.full_mod_name == r.full_mod_name)).isSome := by
    rw [List.find?_isSome]
    exact ⟨r, hrmem, by simp⟩
  obtain ⟨x, hx⟩ := Option.isSome_iff_exists.1 hsome
  have hb := List.find?_some hx
  have hxn : x.full_mod_name = r.full_mod_name := name_eq_of_beq hb
  obtain ⟨hpx, l₁, l₂, hsplit, hl₁⟩ := List.find?_eq_some.1 hx
  have heq : l₁ ++ x :: l₂ = done ++ r :: rest := by rw [← hsplit, ← hpool]
  rcases first_match_mem (fun x => x.full_mod_name == r.full_mod_name) l₁ heq
      (fun y hy => by
        have h2 := hl₁ y hy
        rw [Bool.not_eq_true'] at h2
        exact h2)
      (by simp) with hxd | hxr
  · exact Or.inr ⟨x, hxd, hxn⟩
  · subst hxr
    left
    unfold locatePure
    rw [hx]

theorem resolveRoots_main {env : Env} {pol : Policy} {pool : List BuildSpec}
    {fuel : Nat} (hwf : WFEnv env) :
    ∀ (rs done : List BuildSpec) {st st' : RState},
    pool = done ++ rs →
    (∀ p ∈ done, p.full_mod_name ∈ st.memo) →
    Inv env pol pool st →
    resolveRoots env pol pool fuel rs st = .ok st' →
    Inv env pol pool st' ∧ Ext st st' ∧ ∀ r ∈ rs, r.full_mod_name ∈ st'.memo := by
  intro rs
  induction rs with
  | nil =>
    intro done st st' _ _ hinv h
    simp only [resolveRoots] at h
    cases h
    refine ⟨hinv, Ext.refl _, ?_⟩
    intro r hr
    cases hr
  | cons r rs ih =>
    intro done st st' hpool hdone hinv h
    simp only [resolveRoots] at h
    split at h
    next e hv => exact absurd h (by simp)
    next st₁ hv =>
      have hLocOK : locatePure env pool r.full_mod_name = some r ∨
          r.full_mod_name ∈ st.memo := by
        rcases locatePure_root env hpool with h1 | ⟨x, hx, hxn⟩
        · exact Or.inl h1
        · exact Or.inr (hxn ▸ hdone x hx)
      have hrpool : r ∈ pool := by
        rw [hpool]; exact List.mem_append_right _ (List.mem_cons_self _ _)
      have hHE : r.full_mod_name ∈ st.memo ∨ Pruned env pol pool r.full_mod_name ∨
          Emits env pol pool r.full_mod_name :=
        Or.inr (Or.inr (Emits.root r hrpool))
      obtain ⟨hinv₁, hext₁, hmemo₁, _⟩ :=
        pspec_all env pol pool fuel [] r st st₁ hwf hinv hLocOK hHE hv
      have hpool' : pool = (done ++ [r]) ++ rs := by rw [hpool]; simp
      have hdone' : ∀ p ∈ done ++ [r], p.full_mod_name ∈ st₁.memo := by
        intro p hp
        rcases List.mem_append.1 hp with hp' | hp'
        · exact hext₁.memo_mem (hdone p hp')
        · have hpr : p = r := by simpa using hp'
          subst hpr
          exact hmemo₁
      obtain ⟨hinv', hext', hrs'⟩ := ih (done ++ [r]) hpool' hdone' hinv₁ h
      refine ⟨hinv', hext₁.trans hext', ?_⟩
      intro x hx
      rcases List.mem_cons.1 hx with rfl | hx'
      · exact hext'.memo_mem hmemo₁
      · exact hrs' x hx'

/-- Every successful `resolve_dependencies` call comes from a completed
traversal whose final state satisfies the invariant, has an empty
irresolvable list, and memoised every root. -/
theorem resolve_ok_state {env : Env} {pol : Policy} {pool : List BuildSpec}
    {fuel : Nat} {out : List BuildSpec} (hwf : WFEnv env)
    (h : resolve_dependencies env pol pool fuel = .ok out) :
    ∃ st, resolveRoots env pol pool fuel pool initState = .ok st ∧
      st.emitted = out ∧ st.unresolved = [] ∧ Inv env pol pool st ∧
      ∀ r ∈ pool, r.full_mod_name ∈ st.memo := by
  unfold resolve_dependencies at h
  split at h
  · exact absurd h (by simp)
  · exact absurd h (by simp)
  next st hst =>
    split at h
    next hemp =>
      injection h with h'
      obtain ⟨hinv, _, hroots⟩ :=
        resolveRoots_main hwf pool [] (by simp)
          (by intro p hp; cases hp) (inv_init env pol pool) hst
      exact ⟨st, hst, h', hemp, hinv, hroots⟩
    next => exact absurd h (by simp)

/-! General consequences of the invariant. -/

theorem wfenv_search_none (av : String → Bool) (dn : Dep → String) :
    WFEnv ⟨av, dn, fun _ => none⟩ := by
  intro n s h
  cases h

theorem wfenv_search_find (av : String → Bool) (dn : Dep → String)
    (repo : List BuildSpec) :
    WFEnv ⟨av, dn, fun n => repo.find? (fun s => s.full_mod_name == n)⟩ := by
  intro n s h
  have h' : repo.find? (fun s => s.full_mod_name == n) = some s := h
  have hb := List.find?_some h'
  exact name_eq_of_beq hb

theorem name_unique {l : List BuildSpec}
    (hnd : (l.map BuildSpec.full_mod_name).Nodup) {x y : BuildSpec}
    (hx : x ∈ l) (hy : y ∈ l) (hxy : x.full_mod_name = y.full_mod_name) :
    x = y :=
  List.inj_on_of_nodup_map hnd hx hy hxy

/-- Completeness of a successful resolution: every `Emits`-derivable name is
among the emitted full module names. -/
theorem emits_mem_out {env : Env} {pol : Policy} {pool : List BuildSpec}
    {fuel : Nat} {out : List BuildSpec} (hwf : WFEnv env)
    (h : resolve_dependencies env pol pool fuel = .ok out) :
    ∀ m, Emits env pol pool m → m ∈ out.map BuildSpec.full_mod_name := by
  obtain ⟨st, hst, hemit, hunres, hinv, hroots⟩ := resolve_ok_state hwf h
  subst hemit
  intro m hm
  induction hm with
  | root r hr =>
    have hmemo := hroots r hr
    rcases hinv.memo_cases _ hmemo with h1 | h1
    · exact h1
    · exact absurd h1 (pruned_not_pool (List.mem_map.2 ⟨r, hr, rfl⟩))
  | step m s d hm hls hd hsome hnp ih =>
    obtain ⟨x, hx, hxn⟩ := List.mem_map.1 ih
    have hlx := hinv.emitted_loc x hx
    rw [hxn, hls] at hlx
    have hsx : s = x := Option.some.inj hlx
    subst hsx
    obtain ⟨k, hk, hkx⟩ := List.getElem_of_mem hx
    obtain ⟨j, hj, hjk, hjn⟩ :=
      hinv.order k hk d (by rw [hkx]; exact hd) hsome hnp
    exact List.mem_map.2 ⟨st.emitted[j], List.mem_iff_getElem.2 ⟨j, hj, rfl⟩, hjn⟩

/-- A direct dependency inside a successful result is emitted strictly
earlier. -/
theorem resolve_direct_before {env : Env} {pol : Policy} {pool : List BuildSpec}
    {fuel : Nat} {out : List BuildSpec} (hwf : WFEnv env)
    (h : resolve_dependencies env pol pool fuel = .ok out) :
    ∀ a b, DirectDepIn env out a b → out.indexOf b < out.indexOf a := by
  obtain ⟨st, hst, hemit, hunres, hinv, hroots⟩ := resolve_ok_state hwf h
  subst hemit
  rintro a b ⟨ha, hb, hdep⟩
  obtain ⟨d, hd, hdn⟩ := List.mem_map.1 hdep
  have hsome : (locatePure env pool (env.depModName d)).isSome = true := by
    rw [hdn, hinv.emitted_loc b hb]
    rfl
  have hnp : ¬ Pruned env pol pool (env.depModName d) := by
    rw [hdn]
    exact hinv.emitted_not_pruned b hb
  have hka : st.emitted.indexOf a < st.emitted.length := List.indexOf_lt_length.2 ha
  have hga : st.emitted[st.emitted.indexOf a] = a := List.getElem_indexOf hka
  obtain ⟨j, hj, hjk, hjn⟩ :=
    hinv.order (st.emitted.indexOf a) hka d (by rw [hga]; exact hd) hsome hnp
  have hjb : st.emitted[j] = b := by
    have h1 : st.emitted[j].full_mod_name = b.full_mod_name := by rw [hjn, hdn]
    exact name_unique hinv.nodup (List.mem_iff_getElem.2 ⟨j, hj, rfl⟩) hb h1
  have hnd : st.emitted.Nodup := List.Nodup.of_map _ hinv.nodup
  have hkb : st.emitted.indexOf b < st.emitted.length := List.indexOf_lt_length.2 hb
  have hgb : st.emitted[st.emitted.indexOf b] = b := List.getElem_indexOf hkb
  have hbj : st.emitted.indexOf b = j := (hnd.getElem_inj_iff).1 (hgb.trans hjb.symm)
  omega

/-! Runs on dependency-free inputs. -/

theorem visitSpec_no_deps {env : Env} {pol : Policy} {pool : List BuildSpec}
    {fuel : Nat} {gray : List String} {r : BuildSpec} {st : RState}
    (hg : r.full_mod_name ∉ gray) (hm : r.full_mod_name ∉ st.memo)
    (hp : r.full_mod_name ∈ poolNames pool) (hd : r.dependencies = []) :
    visitSpec env pol pool (fuel + 1) gray r st =
      .ok { st with memo := st.memo ++ [r.full_mod_name],
                    emitted := st.emitted ++ [r] } := by
  simp only [visitSpec]
  rw [if_neg hg, if_neg hm, if_neg (pruned_not_pool hp), hd]
  simp only [visitDeps]

theorem resolveRoots_no_deps {env : Env} {pol : Policy} {pool : List BuildSpec}
    {fuel : Nat} :
    ∀ (rs : List BuildSpec) (st : RState),
    (∀ s ∈ rs, s.dependencies = []) →
    (∀ s ∈ rs, s.full_mod_name ∈ poolNames pool) →
    (∀ s ∈ rs, s.full_mod_name ∉ st.memo) →
    (rs.map BuildSpec.full_mod_name).Nodup →
    resolveRoots env pol pool (fuel + 1) rs st =
      .ok { st with memo := st.memo ++ rs.map BuildSpec.full_mod_name,
                    emitted := st.emitted ++ rs } := by
  intro rs
  induction rs with
  | nil =>
    intro st _ _ _ _
    simp only [resolveRoots]
    cases st
    simp
  | cons r rs ih =>
    intro st hdeps hpools hmemo hnd
    simp only [resolveRoots]
    rw [visitSpec_no_deps (by simp) (hmemo r (List.mem_cons_self _ _))
      (hpools r (List.mem_cons_self _ _)) (hdeps r (List.mem_cons_self _ _))]
    show resolveRoots env pol pool (fuel + 1) rs
        { st with memo := st.memo ++ [r.full_mod_name],
                  emitted := st.emitted ++ [r] } = _
    have hnd2 : (r.full_mod_name :: rs.map BuildSpec.full_mod_name).Nodup := by
      rw [← List.map_cons]
      exact hnd
    have hnd' := List.nodup_cons.1 hnd2
    rw [ih _ (fun s hs => hdeps s (List.mem_cons_of_mem _ hs))
      (fun s hs => hpools s (List.mem_cons_of_mem _ hs))
      (fun s hs => by
        intro hc
        rcases List.mem_append.1 hc with hc' | hc'
        · exact hmemo s (List.mem_cons_of_mem _ hs) hc'
        · have hsr : s.full_mod_name = r.full_mod_name := by simpa using hc'
          exact hnd'.1 (hsr ▸ List.mem_map.2 ⟨s, hs, rfl⟩))
      hnd'.2]
    simp [List.append_assoc]

theorem resolve_dependencies_no_deps {env : Env} {pol : Policy}
    {pool : List BuildSpec} {fuel : Nat} (hfuel : 1 ≤ fuel)
    (hnd : (poolNames pool).Nodup) (hdeps : ∀ s ∈ pool, s.dependencies = []) :
    resolve_dependencies env pol pool fuel = .ok pool := by
  obtain ⟨f, rfl⟩ : ∃ f, fuel = f + 1 := ⟨fuel - 1, by omega⟩
  unfold resolve_dependencies
  rw [resolveRoots_no_deps pool initState hdeps
    (fun s hs => List.mem_map.2 ⟨s, hs, rfl⟩) (by simp [initState]) hnd]
  simp [initState]

/-! The claims. -/

/-- Claim C1: for every input accepted by `resolve_dependencies`, the
returned ordered list is dependency-first: whenever unit `b` is a direct or
indirect dependency of unit `a` within the result, `b` appears strictly
before `a`. -/
theorem resolve_dependencies_dependency_first {env : Env} {pol : Policy}
    {pool : List BuildSpec} {fuel : Nat} {out : List BuildSpec} (hwf : WFEnv env)
    (h : resolve_dependencies env pol pool fuel = .ok out) {a b : BuildSpec}
    (hab : Relation.TransGen (DirectDepIn env out) a b) :
    out.indexOf b < out.indexOf a := by
  induction hab with
  | single h1 => exact resolve_direct_before hwf h _ _ h1
  | tail htg h1 ih => exact lt_trans (resolve_direct_before hwf h _ _ h1) ih

/-- Witness for C1: in the run on `[gzipSpec, fooGzip]`, foo depends on
gzip, and gzip is emitted strictly before foo. -/
theorem resolve_dependencies_dependency_first_witness :
    [gzipSpec, fooGzip].indexOf gzipSpec < [gzipSpec, fooGzip].indexOf fooGzip :=
  resolve_dependencies_dependency_first
    (wfenv_search_none (fun _ => false) dName)
    (rfl : resolve_dependencies noneEnv ⟨false, false⟩ [gzipSpec, fooGzip] 10 =
      ResolveResult.ok [gzipSpec, fooGzip])
    (Relation.TransGen.single (by refine ⟨by simp, by simp, ?_⟩; decide))

/-- Claim C2: when, after the traversal completes, irresolvable descriptors
were recorded, `resolve_dependencies` fails with a single
UnresolvedDependency error listing exactly the collected descriptors,
returns no output, and every listed descriptor is genuinely neither
locatable nor available. -/
theorem resolve_dependencies_unresolved_batch {env : Env} {pol : Policy}
    {pool : List BuildSpec} {fuel : Nat} {st : RState} (hwf : WFEnv env)
    (hst : resolveRoots env pol pool fuel pool initState = .ok st)
    (hne : st.unresolved ≠ []) :
    resolve_dependencies env pol pool fuel = .unresolvedDependency st.unresolved ∧
    (∀ l, resolve_dependencies env pol pool fuel ≠ .ok l) ∧
    (∀ d ∈ st.unresolved, locatePure env pool (env.depModName d) = none ∧
      env.available (env.depModName d) = false) := by
  have hres : resolve_dependencies env pol pool fuel =
      .unresolvedDependency st.unresolved := by
    unfold resolve_dependencies
    rw [hst]
    show (if st.unresolved = [] then ResolveResult.ok st.emitted
      else ResolveResult.unresolvedDependency st.unresolved) = _
    rw [if_neg hne]
  obtain ⟨hinv, _, _⟩ :=
    resolveRoots_main hwf pool [] (by simp)
      (by intro p hp; cases hp) (inv_init env pol pool) hst
  refine ⟨hres, ?_, hinv.unres⟩
  intro l hl
  rw [hres] at hl
  cases hl

/-- Witness for C2: bar/1.0 declares two descriptors that are neither
locatable nor available; the traversal completes, collects both, and the
call fails listing both. -/
theorem resolve_dependencies_unresolved_batch_witness :
    resolve_dependencies noneEnv ⟨false, false⟩ [barSpec] 10 =
      .unresolvedDependency [dDep "miss1" "1", dDep "miss2" "2"] :=
  (resolve_dependencies_unresolved_batch
    (wfenv_search_none (fun _ => false) dName)
    (rfl : resolveRoots noneEnv ⟨false, false⟩ [barSpec] 10 [barSpec] initState =
      Except.ok ⟨["bar/1.0"], [barSpec], [],
        [dDep "miss1" "1", dDep "miss2" "2"]⟩)
    (List.cons_ne_nil _ _)).1

/-- Claim C3: with `retain_all_deps` false, a located dependency whose
module is available is pruned shallowly: its own dependencies are not
descended into and it is not emitted; in the concrete goolf scenario the
five available ingredients (each carrying a poisoned dependency that would
fail the resolution if descended into) are pruned, giving exactly
`[goolf/1.4.10, foo/1.2.3]`. -/
theorem resolve_dependencies_shallow_prune :
    (∀ (env : Env) (pol : Policy) (pool : List BuildSpec) (fuel : Nat)
      (gray : List String) (s : BuildSpec) (st : RState),
      pol.retain_all_deps = false → env.available s.full_mod_name = true →
      s.full_mod_name ∉ poolNames pool → s.full_mod_name ∉ gray →
      s.full_mod_name ∉ st.memo →
      visitSpec env pol pool (fuel + 1) gray s st =
        .ok { st with memo := st.memo ++ [s.full_mod_name] }) ∧
    resolve_dependencies c3Env ⟨false, false⟩ [fooSpec] 40 =
      .ok [goolfSpec, fooSpec] := by
  constructor
  · intro env pol pool fuel gray s st hret hav hnp hg hm
    simp only [visitSpec]
    rw [if_neg hg, if_neg hm, if_pos ⟨hnp, hav, hret⟩]
  · rfl

/-- Witness for C3: the shallow-prune clause applied at a concrete input:
an available non-root spec is memoised without emission or descent. -/
theorem resolve_dependencies_shallow_prune_witness :
    visitSpec allEnv ⟨false, false⟩ [] 1 [] gzipSpec initState =
      .ok { initState with memo := initState.memo ++ ["gzip/1.4"] } :=
  resolve_dependencies_shallow_prune.1 allEnv ⟨false, false⟩ [] 0 [] gzipSpec
    initState rfl rfl (by simp [poolNames]) (by simp) (by simp [initState])

/-- Claim C4: root specs are never pruned by module availability: every
explicitly supplied root's full module name appears in a successful result,
even when its module is reported available. -/
theorem resolve_dependencies_roots_in_output {env : Env} {pol : Policy}
    {pool : List BuildSpec} {fuel : Nat} {out : List BuildSpec} (hwf : WFEnv env)
    (h : resolve_dependencies env pol pool fuel = .ok out) :
    ∀ r ∈ pool, ∃ s ∈ out, s.full_mod_name = r.full_mod_name := by
  obtain ⟨st, hst, hemit, hunres, hinv, hroots⟩ := resolve_ok_state hwf h
  subst hemit
  intro r hr
  have hmemo := hroots r hr
  rcases hinv.memo_cases _ hmemo with h1 | h1
  · obtain ⟨x, hx, hxn⟩ := List.mem_map.1 h1
    exact ⟨x, hx, hxn⟩
  · exact absurd h1 (pruned_not_pool (List.mem_map.2 ⟨r, hr, rfl⟩))

/-- Witness for C4: under an oracle reporting every module available, the
root gzip/1.4 is still present in the output. -/
theorem resolve_dependencies_roots_in_output_witness :
    allEnv.available gzipSpec.full_mod_name = true ∧
    gzipSpec.full_mod_name ∈ [gzipSpec].map BuildSpec.full_mod_name := by
  refine ⟨rfl, ?_⟩
  obtain ⟨s, hs, hn⟩ :=
    resolve_dependencies_roots_in_output
      (wfenv_search_none (fun _ => true) dName)
      (rfl : resolve_dependencies allEnv ⟨false, false⟩ [gzipSpec] 10 =
        ResolveResult.ok [gzipSpec])
      gzipSpec (List.mem_cons_self _ _)
  exact List.mem_map.2 ⟨s, hs, hn⟩

/-- Claim C5: for identical inputs, the set of full module names resolved
with `retain_all_deps = true` is a superset of the set resolved with
`retain_all_deps = false`. -/
theorem resolve_dependencies_retain_superset {env : Env} {f : Bool}
    {pool : List BuildSpec} {fuel₁ fuel₂ : Nat} {outF outT : List BuildSpec}
    (hwf : WFEnv env)
    (hF : resolve_dependencies env ⟨f, false⟩ pool fuel₁ = .ok outF)
    (hT : resolve_dependencies env ⟨f, true⟩ pool fuel₂ = .ok outT) :
    ∀ n ∈ outF.map BuildSpec.full_mod_name, n ∈ outT.map BuildSpec.full_mod_name := by
  intro n hn
  obtain ⟨stF, _, hemF, _, hinvF, _⟩ := resolve_ok_state hwf hF
  rw [← hemF] at hn
  obtain ⟨x, hx, hxn⟩ := List.mem_map.1 hn
  have hEm : Emits env ⟨f, false⟩ pool x.full_mod_name := hinvF.sound x hx
  have hEm' : Emits env ⟨f, true⟩ pool x.full_mod_name := emits_retain_mono hEm
  have hmem := emits_mem_out hwf hT _ hEm'
  rw [hxn] at hmem
  exact hmem

/-- Witness for C5: both runs on `[gzipSpec, fooGzip]` succeed and the name
gzip/1.4 of the plain result is also in the `retain_all_deps` result. -/
theorem resolve_dependencies_retain_superset_witness :
    "gzip/1.4" ∈ [gzipSpec, fooGzip].map BuildSpec.full_mod_name :=
  resolve_dependencies_retain_superset
    (wfenv_search_none (fun _ => false) dName)
    (rfl : resolve_dependencies noneEnv ⟨false, false⟩ [gzipSpec, fooGzip] 10 =
      ResolveResult.ok [gzipSpec, fooGzip])
    (rfl : resolve_dependencies noneEnv ⟨false, true⟩ [gzipSpec, fooGzip] 10 =
      ResolveResult.ok [gzipSpec, fooGzip])
    "gzip/1.4" (by decide)

/-- Claim C6: `skip_available` is the identity when `force` is true; with
`force` false it returns an order-preserving sublist containing exactly the
specs whose own full module name the availability oracle does not report
available. -/
theorem skip_available_spec :
    ∀ (env : Env) (r : Bool) (specs : List BuildSpec),
    skip_available env ⟨true, r⟩ specs = specs ∧
    (skip_available env ⟨false, r⟩ specs).Sublist specs ∧
    (∀ s, s ∈ skip_available env ⟨false, r⟩ specs ↔
      s ∈ specs ∧ env.available s.full_mod_name = false) := by
  intro env r specs
  refine ⟨rfl, ?_, ?_⟩
  · simp only [skip_available]
    exact List.filter_sublist _
  · intro s
    simp [skip_available, List.mem_filter]

/-- Claim C7: in every successful result of `resolve_dependencies`, each
full module name occurs at most once. -/
theorem resolve_dependencies_nodup_names {env : Env} {pol : Policy}
    {pool : List BuildSpec} {fuel : Nat} {out : List BuildSpec} (hwf : WFEnv env)
    (h : resolve_dependencies env pol pool fuel = .ok out) :
    (out.map BuildSpec.full_mod_name).Nodup := by
  obtain ⟨st, _, hemit, _, hinv, _⟩ := resolve_ok_state hwf h
  subst hemit
  exact hinv.nodup

/-- Witness for C7: the concrete run on `[gzipSpec, fooGzip]` has pairwise
distinct full module names. -/
theorem resolve_dependencies_nodup_names_witness :
    (([gzipSpec, fooGzip]).map BuildSpec.full_mod_name).Nodup :=
  resolve_dependencies_nodup_names
    (wfenv_search_none (fun _ => false) dName)
    (rfl : resolve_dependencies noneEnv ⟨false, false⟩ [gzipSpec, fooGzip] 10 =
      ResolveResult.ok [gzipSpec, fooGzip])

/-- Claim C8 (amended): on an input whose specs declare no dependencies and
whose full module names are pairwise distinct, `resolve_dependencies`
returns the input unchanged, in the same order.  (Duplicated names are
deduplicated by the memo, so the unamended claim fails.) -/
theorem resolve_dependencies_no_deps_id {env : Env} {pol : Policy}
    {pool : List BuildSpec} {fuel : Nat} (hfuel : 1 ≤ fuel)
    (hnd : (poolNames pool).Nodup) (hdeps : ∀ s ∈ pool, s.dependencies = []) :
    resolve_dependencies env pol pool fuel = .ok pool :=
  resolve_dependencies_no_deps hfuel hnd hdeps

/-- Witness for C8 (amended): a two-element dependency-free input with
distinct names is returned unchanged. -/
theorem resolve_dependencies_no_deps_id_witness :
    resolve_dependencies noneEnv ⟨false, false⟩ [gzipSpec, tarSpec] 5 =
      .ok [gzipSpec, tarSpec] ∧ tarSpec ≠ gzipSpec := by
  refine ⟨?_, by decide⟩
  exact resolve_dependencies_no_deps_id (by omega) (by decide)
    (by intro s hs; fin_cases hs <;> decide)

/-- Counterexample to C8 as stated: the dependency-free input
`[gzipSpec, gzipSpec]` is not returned unchanged; the duplicate full module
name is deduplicated. -/
theorem resolve_dependencies_no_deps_counterexample :
    gzipSpec.dependencies = [] ∧
    resolve_dependencies noneEnv ⟨false, false⟩ [gzipSpec, gzipSpec] 10 =
      .ok [gzipSpec] ∧
    ResolveResult.ok [gzipSpec] ≠ ResolveResult.ok [gzipSpec, gzipSpec] :=
  ⟨rfl, rfl, by decide⟩

/-- Claim C9: requesting a job backend by a name for which no usable
backend is registered makes `job_server` selection fail (the class lookup
yields `None`, which the Python code then fatally attempts to call), before
any job submission is attempted. -/
theorem job_server_unusable_none {reg : List JobBackend} {n : String}
    (h : ∀ b ∈ reg, b.name = n → b.usable = false) :
    job_server reg n = none := by
  unfold job_server backendLookup avail_job_servers
  rw [List.find?_eq_none]
  intro x hx hbeq
  rw [List.mem_reverse] at hx
  have hx' := List.mem_filter.1 hx
  have hxn : x.name = n := by simpa using hbeq
  have hu : x.usable = true := by simpa using hx'.2
  rw [h x hx'.1 hxn] at hu
  cases hu

/-- Witness for C9: the PbsPython backend is registered but not usable, so
selecting it fails; an unregistered name fails likewise. -/
theorem job_server_unusable_none_witness :
    job_server [pbsBackend, gcBackend] "PbsPython" = none ∧
    job_server [pbsBackend, gcBackend] "NoSuchBackend" = none :=
  ⟨job_server_unusable_none (by decide), job_server_unusable_none (by decide)⟩

/-- Claim C10: `preferred_job_server` returns the first name in the
preference order whose backend is registered with `USABLE` true, and
returns `None` (not an error) when no name in the order is. -/
theorem preferred_job_server_spec :
    ∀ (reg : List JobBackend) (order : List String),
    preferred_job_server reg order =
      order.find? (fun n => (backendLookup (avail_job_servers reg true) n).isSome) ∧
    (preferred_job_server reg order = none ↔
      ∀ n ∈ order, backendLookup (avail_job_servers reg true) n = none) ∧
    (∀ n, (backendLookup (avail_job_servers reg true) n).isSome = true ↔
      ∃ b ∈ reg, b.name = n ∧ b.usable = true) := by
  intro reg order
  have h1 : preferred_job_server reg order =
      order.find? (fun n => (backendLookup (avail_job_servers reg true) n).isSome) := by
    induction order with
    | nil => rfl
    | cons b rest ih =>
      simp only [preferred_job_server]
      by_cases hb : (backendLookup (avail_job_servers reg true) b).isSome = true
      · rw [if_pos hb, List.find?_cons_of_pos rest
          (show (fun n => (backendLookup (avail_job_servers reg true) n).isSome) b = true
            from hb)]
      · rw [if_neg hb, ih, List.find?_cons_of_neg rest
          (show ¬ (fun n => (backendLookup (avail_job_servers reg true) n).isSome) b = true
            from hb)]
  refine ⟨h1, ?_, ?_⟩
  · rw [h1, List.find?_eq_none]
    simp only [Bool.not_eq_true]
    constructor
    · intro h n hn
      have h2 := h n hn
      cases hob : backendLookup (avail_job_servers reg true) n with
      | none => rfl
      | some x => rw [hob] at h2; cases h2
    · intro h n hn
      rw [h n hn]
      rfl
  · intro n
    rw [backendLookup, List.find?_isSome]
    constructor
    · rintro ⟨x, hx, hbeq⟩
      rw [List.mem_reverse] at hx
      have hx' := List.mem_filter.1 hx
      exact ⟨x, hx'.1, by simpa using hbeq, by simpa using hx'.2⟩
    · rintro ⟨b, hb, hbn, hbu⟩
      refine ⟨b, ?_, by simp [hbn]⟩
      rw [List.mem_reverse]
      exact List.mem_filter.2 ⟨hb, by simp [hbu]⟩

end EasyBuild
